import Mathlib

/-!
Verification development for the Certus repository (RBC Mortgage & Creditor
Insurance Advisor Assistant).  The Python sources are shallowly embedded:
strings are lists of characters, Python ints are `Int`/`Nat`, Python floats
are modelled as exact decimal rationals `ℚ`, and calls into external systems
(ChromaDB, tiktoken, the file system, OpenAI) are modelled by explicit
outcome parameters.  Each embedded definition is named after the Python
function it translates.
-/

namespace Certus

/-- Strings are modelled as lists of characters. -/
abbrev Str := List Char

/-- Converts a Lean string literal to the character-list model. -/
def strL (s : String) : Str := s.data

/-- Model of the characters matched by the regex class backslash-s applied to
ASCII text: space, tab, newline, carriage return, vertical tab, form feed. -/
def isPySpace (c : Char) : Bool :=
  c = ' ' || c = '\t' || c = '\n' || c = '\r' || c = '\x0b' || c = '\x0c'

/-- Characters that end a sentence in the regex used by
`split_text_into_chunks`: period, exclamation mark, question mark. -/
def isSentEnd (c : Char) : Bool :=
  c = '.' || c = '!' || c = '?'

/-- Model of Python `str.strip()`: drop whitespace from both ends. -/
def pyStrip (l : Str) : Str :=
  List.rdropWhile isPySpace (List.dropWhile isPySpace l)

/-- Model of Python `str.lower()` restricted to the characters the claims
exercise (ASCII case folding). -/
def pyLower (l : Str) : Str := l.map Char.toLower

/-- Model of `utils.count_tokens` (src/utils.py lines 48-55):
`len(text) // 4`. -/
def count_tokens (t : Str) : Nat := t.length / 4

/-- Model of `re.sub(r'\s+', ' ', text)` (src/utils.py line 60): every
maximal run of whitespace characters is replaced by a single space. -/
def collapseWs : Str → Str
  | [] => []
  | [c] => if isPySpace c then [' '] else [c]
  | c :: d :: rest =>
    if isPySpace c then
      if isPySpace d then collapseWs (d :: rest)
      else ' ' :: collapseWs (d :: rest)
    else c :: collapseWs (d :: rest)

/-- Accumulator version of Python `text.split('\n\n')` (src/utils.py
line 63): split at each non-overlapping occurrence of two newlines. -/
def paraSplitAux (acc : Str) : Str → List Str
  | [] => [acc]
  | [c] => [acc ++ [c]]
  | c :: d :: rest =>
    if c = '\n' && d = '\n' then acc :: paraSplitAux [] rest
    else paraSplitAux (acc ++ [c]) (d :: rest)

/-- Model of Python `text.split('\n\n')`. -/
def paraSplit (l : Str) : List Str := paraSplitAux [] l

/-- Tests whether the current accumulated piece ends in a sentence-ending
character; this plays the role of the lookbehind `(?<=[.!?])`. -/
def lastIsSentEnd (acc : Str) : Bool :=
  match acc.getLast? with
  | some d => isSentEnd d
  | none => false

/-- Accumulator version of `re.split(r'(?<=[.!?])\s+', chunk)` (src/utils.py
line 83): scan left to right; a maximal whitespace run whose preceding
character is a sentence end separates two pieces and is consumed. -/
def sentSplitAux (acc : Str) : Str → List Str
  | [] => [acc]
  | c :: rest =>
    if isPySpace c && lastIsSentEnd acc then
      acc :: sentSplitAux [] (rest.dropWhile isPySpace)
    else
      sentSplitAux (acc ++ [c]) rest
termination_by l => l.length
decreasing_by
  · exact Nat.lt_succ_of_le ((List.dropWhile_suffix _).length_le)
  · exact Nat.lt_succ_self _

/-- Model of `re.split(r'(?<=[.!?])\s+', chunk)`. -/
def sentenceSplit (l : Str) : List Str := sentSplitAux [] l

/-- One iteration of the greedy accumulation loops of
`split_text_into_chunks` (src/utils.py lines 67-73 and 85-90): if appending
the next piece (joined by a single space) would push the token estimate past
the budget and the current chunk is non-empty, flush the stripped current
chunk and restart from the piece; otherwise append the piece. -/
def accumStep (maxT : Int) (s : List Str × Str) (p : Str) : List Str × Str :=
  if (count_tokens (s.2 ++ ' ' :: p) : Int) > maxT ∧ s.2 ≠ [] then
    (s.1 ++ [pyStrip s.2], p)
  else
    (s.1, if s.2 = [] then p else s.2 ++ ' ' :: p)

/-- Final step of the greedy loops (src/utils.py lines 76-77 and 91-92):
append the stripped current chunk when it is non-empty. -/
def accumFinish (s : List Str × Str) : List Str :=
  if s.2 = [] then s.1 else s.1 ++ [pyStrip s.2]

/-- The greedy accumulation loop over a list of pieces. -/
def greedyAccum (maxT : Int) (pieces : List Str) : List Str :=
  accumFinish (pieces.foldl (accumStep maxT) ([], []))

/-- Model of `utils.split_text_into_chunks` (src/utils.py lines 57-96):
normalize whitespace and strip, split into paragraphs, accumulate
paragraphs greedily, then re-split any oversized chunk at sentence
boundaries with the same greedy rule. -/
def split_text_into_chunks (text : Str) (maxT : Int) : List Str :=
  (greedyAccum maxT (paraSplit (pyStrip (collapseWs text)))).flatMap fun c =>
    if (count_tokens c : Int) > maxT then greedyAccum maxT (sentenceSplit c)
    else [c]

/-- Joins chunks with single spaces; used to state that the produced chunks
are the non-overlapping, in-order pieces of the normalized text. -/
def joinSpaces : List Str → Str
  | [] => []
  | [p] => p
  | p :: q :: t => p ++ ' ' :: joinSpaces (q :: t)

/-- A piece is well-ended when it is non-empty and neither its first nor its
last character is whitespace; such pieces are unchanged by `pyStrip`. -/
def okPiece (p : Str) : Prop :=
  p ≠ [] ∧ (∀ c, p.head? = some c → isPySpace c = false) ∧
    (∀ c, p.getLast? = some c → isPySpace c = false)

/-- Adjacent characters are never both whitespace; this holds of
whitespace-normalized text. -/
def noWsPair (a b : Char) : Prop :=
  ¬(isPySpace a = true ∧ isPySpace b = true)

/-- No whitespace character directly follows a sentence-ending character;
text with this property is a single sentence for `sentenceSplit`. -/
def noBoundaryPair (a b : Char) : Prop :=
  ¬(isSentEnd a = true ∧ isPySpace b = true)

/-- Outcome of the external interactions performed inside the `try` block of
`utils.retrieve_relevant_chunks` (src/utils.py lines 142-232): loading or
seeding the ChromaDB collection, embedding the query and running
`collection.query`.  `raised` stands for any exception escaping the block;
`success docs` stands for a completed call whose result dictionary carries
`docs` in its `documents` field (`none` when the dictionary is falsy or has
no `documents` key; the list holds one entry per query embedding). -/
inductive QueryOutcome where
  | raised : QueryOutcome
  | success : Option (List (List Str)) → QueryOutcome

/-- The mortgage-keyword fallback snippets (src/utils.py lines 217-221). -/
def mortgageFallback : List Str :=
  [strL "HomeProtector mortgage life insurance provides coverage for your mortgage in case of death. The premium is based on your age, mortgage amount, and whether you choose single or joint coverage.",
   strL "If you become disabled and are unable to work, HomeProtector disability insurance can help cover your mortgage payments for up to 24 months per disability.",
   strL "Critical illness insurance provides a lump sum payment that is applied directly to your mortgage if you\x27re diagnosed with a covered condition like cancer, heart attack, or stroke."]

/-- The insurance-keyword fallback snippets (src/utils.py lines 223-227). -/
def insuranceFallback : List Str :=
  [strL "RBC HomeProtector Insurance offers three types of coverage: life, disability, and critical illness. Life insurance covers your mortgage balance, disability helps with monthly payments if you can\x27t work, and critical illness provides a lump sum for covered conditions.",
   strL "Premium rates for HomeProtector life insurance range from $0.10 to $1.63 per $1,000 of the initial insured mortgage balance, depending on age. Joint coverage rates are higher.",
   strL "To be eligible for HomeProtector insurance, you must be a Canadian resident, between 18-69 years of age for life insurance, 18-65 for disability, and 18-55 for critical illness insurance."]

/-- The generic fallback snippets (src/utils.py lines 229-232). -/
def genericFallback : List Str :=
  [strL "RBC offers various mortgage terms from 6 months to 10 years, with both fixed and variable rate options. The most popular term is 5 years.",
   strL "When interest rates increase, your mortgage payments will also increase if you have a variable rate mortgage. With a fixed rate, your payments remain the same until the end of your term."]

/-- The snippets returned by the `except` handler (src/utils.py
lines 236-240). -/
def errorFallback : List Str :=
  [strL "I\x27m currently having trouble accessing my knowledge base. Here\x27s some general information that might help:",
   strL "RBC HomeProtector Insurance offers protection for your mortgage with life, disability, and critical illness coverage options.",
   strL "You can ask me about mortgage terms, insurance eligibility, or payment calculations, and I\x27ll do my best to assist you."]

/-- The keyword-directed fallback of `utils.retrieve_relevant_chunks`
(src/utils.py lines 215-232): substring tests against the lowercased
query select the snippet set. -/
def keywordFallback (query : Str) : List Str :=
  if (strL "mortgage") <:+: pyLower query then mortgageFallback
  else if (strL "insurance") <:+: pyLower query then insuranceFallback
  else genericFallback

/-- Model of `utils.retrieve_relevant_chunks` (src/utils.py lines 140-240).
The external calls are summarized by `out`.  When the query completes, the
code returns `results['documents'][0]` whenever `results` is truthy, has a
`documents` key and that value is a non-empty list; otherwise it falls back
to the keyword snippets.  Any exception is caught and answered with the
fixed error snippets. -/
def retrieve_relevant_chunks (query : Str) (out : QueryOutcome) : List Str :=
  match out with
  | .raised => errorFallback
  | .success (some (first :: _)) => first
  | .success _ => keywordFallback query

/-- The fields of the `client_data` dictionary read by
`utils.assess_risk_level` (src/utils.py lines 331-387).  A missing key is
modelled by its `.get` default (35, 0, 0, 0, 0, False, False). -/
structure ClientData where
  age : Int
  dependents : Int
  annual_income : ℚ
  years_at_current_job : ℚ
  mortgage_amount : ℚ
  smoker : Bool
  pre_existing_conditions : Bool

/-- Model of `utils.assess_risk_level` (src/utils.py lines 331-387).  The
score is an integer; the mortgage-to-income ratio is only consulted when the
annual income is strictly positive, exactly as in the source. -/
def assess_risk_level (cd : ClientData) : String :=
  let ageScore : Int :=
    if cd.age < 30 then 3 else if cd.age < 40 then 2 else if cd.age < 50 then 1 else 0
  let depScore : Int := min cd.dependents 3
  let incomeScore : Int :=
    if cd.annual_income < 50000 then 2 else if cd.annual_income < 80000 then 1 else 0
  let jobScore : Int :=
    if cd.years_at_current_job < 1 then 2 else if cd.years_at_current_job < 3 then 1 else 0
  let ratioScore : Int :=
    if 0 < cd.annual_income then
      let mortgage_to_income := cd.mortgage_amount / cd.annual_income
      if 5 < mortgage_to_income then 3
      else if 3 < mortgage_to_income then 2
      else if 2 < mortgage_to_income then 1
      else 0
    else 0
  let smokerScore : Int := if cd.smoker then 2 else 0
  let condScore : Int := if cd.pre_existing_conditions then 2 else 0
  let risk_score := ageScore + depScore + incomeScore + jobScore + ratioScore + smokerScore + condScore
  if 10 ≤ risk_score then "High"
  else if 6 ≤ risk_score then "Medium"
  else "Low"

/-- Age bracket selection of `utils.calculate_insurance_premium`
(src/utils.py lines 424-445). -/
def age_bracket (age : Int) : Option String :=
  if 18 ≤ age ∧ age ≤ 30 then some "18-30"
  else if 31 ≤ age ∧ age ≤ 35 then some "31-35"
  else if 36 ≤ age ∧ age ≤ 40 then some "36-40"
  else if 41 ≤ age ∧ age ≤ 45 then some "41-45"
  else if 46 ≤ age ∧ age ≤ 50 then some "46-50"
  else if 51 ≤ age ∧ age ≤ 55 then some "51-55"
  else if 56 ≤ age ∧ age ≤ 60 then some "56-60"
  else if 61 ≤ age ∧ age ≤ 65 then some "61-65"
  else if 66 ≤ age ∧ age ≤ 69 then some "66-69"
  else none

/-- The nested rate dictionary of `utils.calculate_insurance_premium`
(src/utils.py lines 392-422), with the float literals read as exact decimal
rationals. -/
def base_rates : List (String × List (String × ℚ)) :=
  [("life",
    [("18-30", 0.10), ("31-35", 0.15), ("36-40", 0.21), ("41-45", 0.31),
     ("46-50", 0.44), ("51-55", 0.59), ("56-60", 0.79), ("61-65", 1.06),
     ("66-69", 1.63)]),
   ("disability",
    [("18-30", 0.15), ("31-35", 0.22), ("36-40", 0.33), ("41-45", 0.43),
     ("46-50", 0.64), ("51-55", 0.95), ("56-60", 1.45), ("61-65", 2.20)]),
   ("critical_illness",
    [("18-30", 0.20), ("31-35", 0.27), ("36-40", 0.40), ("41-45", 0.61),
     ("46-50", 0.95), ("51-55", 1.80)])]

/-- The risk multiplier dictionary of `utils.calculate_insurance_premium`
(src/utils.py lines 459-463). -/
def risk_multipliers : List (String × ℚ) :=
  [("Low", 0.9), ("Medium", 1.0), ("High", 1.2)]

/-- Round-half-to-even to an integer, the rounding used by Python `round`. -/
def pyRoundHalfEven (q : ℚ) : Int :=
  let n := ⌊q⌋
  let f := q - n
  if f < 1/2 then n
  else if 1/2 < f then n + 1
  else if Even n then n else n + 1

/-- Model of Python `round(x, 2)` on the exact decimal value. -/
def pyRound2 (q : ℚ) : ℚ := (pyRoundHalfEven (q * 100) : ℚ) / 100

/-- Model of `utils.calculate_insurance_premium` (src/utils.py
lines 389-468).  Returns `none` exactly where the Python function returns
`None`: the age falls outside 18-69, or the coverage type is not a key of
`base_rates`, or the age bracket is not a key of that coverage type's rate
table. -/
def calculate_insurance_premium (age : Int) (coverage_amount : ℚ)
    (coverage_type : String) (joint : Bool) (risk_level : String) : Option ℚ :=
  match age_bracket age with
  | none => none
  | some br =>
    match (base_rates.lookup coverage_type).bind (fun tbl => tbl.lookup br) with
    | none => none
    | some rate0 =>
      let rate1 := if joint then rate0 * 1.75 else rate0
      let rate2 := rate1 * ((risk_multipliers.lookup risk_level).getD 1.0)
      some (pyRound2 ((coverage_amount / 1000) * rate2))

/-- The rate the table assigns to a coverage type and age, used to state the
nontrivial branch of the premium claim. -/
def bracket_rate (coverage_type : String) (age : Int) : Option ℚ :=
  (age_bracket age).bind fun br =>
    (base_rates.lookup coverage_type).bind fun tbl => tbl.lookup br

/-- The risk-level multiplier as the claim states it: 0.9 for Low, 1.0 for
Medium, 1.2 for High. -/
def risk_mult (risk_level : String) : ℚ :=
  if risk_level = "Low" then 0.9
  else if risk_level = "High" then 1.2
  else 1.0

/-- Decimal digit characters, written with fuel so that the definition is
structurally recursive; `natStr` supplies enough fuel for the fuel never to
run out. -/
def natStrAux : Nat → Nat → Str
  | 0, _ => []
  | fuel + 1, n =>
    if n < 10 then [Nat.digitChar n]
    else natStrAux fuel (n / 10) ++ [Nat.digitChar (n % 10)]

/-- Model of Python `str(n)` for a non-negative integer: its decimal
digits. -/
def natStr (n : Nat) : Str := natStrAux (n + 1) n

/-- Chunk id scheme of `upload_and_process_document` (src/app.py
lines 306-312): the document's file name followed by `-chunk-` and the
chunk's ordinal index. -/
def mkUploadId (name : Str) (i : Nat) : Str :=
  name ++ strL "-chunk-" ++ natStr i

/-- Model of the document records built by `upload_and_process_document`
(src/app.py lines 300-312): each chunk of the uploaded file becomes a
record `(id, content, source)`. -/
def upload_documents (name : Str) (text : Str) (maxT : Int) :
    List (Str × Str × Str) :=
  (split_text_into_chunks text maxT).enum.map fun p =>
    (mkUploadId name p.1, p.2, name)

/-- A directory entry as observed by `load_docs` (src/backend/app.py
lines 166-183): the file name, whether `os.path.isfile` holds, and the
outcome of reading and parsing the file (`Except.error` models a raised
exception such as a corrupt PDF or an unreadable encoding). -/
structure FileEntry where
  name : Str
  isFile : Bool
  readResult : Except Unit Str

/-- A loaded document as built by `load_docs`: the extracted text content
and the source file name stored in the metadata. -/
structure BDoc where
  content : Str
  source : Str
deriving DecidableEq

/-- The body of the `load_docs` loop for one directory entry
(src/backend/app.py lines 168-182): PDFs and text/markdown files that read
successfully yield a document; a read that raises is caught, logged and
yields nothing; other extensions are ignored. -/
def processFile (e : FileEntry) : Option BDoc :=
  if ¬ e.isFile then none
  else if (strL ".pdf").isSuffixOf e.name then
    match e.readResult with
    | .ok c => some ⟨c, e.name⟩
    | .error _ => none
  else if (strL ".txt").isSuffixOf e.name || (strL ".md").isSuffixOf e.name then
    match e.readResult with
    | .ok c => some ⟨c, e.name⟩
    | .error _ => none
  else none

/-- Model of `load_docs` (src/backend/app.py lines 166-183): process the
directory entries in order, collecting the documents that load. -/
def load_docs (files : List FileEntry) : List BDoc :=
  files.filterMap processFile

/-- Splits a token list into consecutive runs of `maxT` tokens, the loop of
the backend `split_text_into_chunks` (src/backend/app.py lines 156-164).
The fuel argument only serves termination: `backend_split_text_into_chunks`
passes the token count, which the loop can never exhaust because every
iteration with a positive `maxT` consumes at least one token. -/
def bsAux (maxT : Nat) : Nat → List Nat → List (List Nat)
  | _, [] => []
  | 0, ts => [ts]
  | fuel + 1, ts => ts.take maxT :: bsAux maxT fuel (ts.drop maxT)

/-- Model of the backend `split_text_into_chunks` (src/backend/app.py
lines 156-164).  The tiktoken encoder is external; it is passed in as the
pair `enc`/`dec` (encode to token ids, decode back to text). -/
def backend_split_text_into_chunks (enc : Str → List Nat) (dec : List Nat → Str)
    (text : Str) (maxT : Nat) : List Str :=
  (bsAux maxT (enc text).length (enc text)).map dec

/-- The ChromaDB collection state observed through the operations
`initialize_db` uses: a list of `(id, document)` entries.  (`metadatas` are
carried alongside in the source and affect no claim; they are omitted from
the entry.) -/
structure Collection where
  entries : List (Str × Str)
deriving DecidableEq

/-- Model of `collection.get()["ids"]`. -/
def get_ids (c : Collection) : List Str := c.entries.map (·.1)

/-- Model of `collection.delete(ids=...)`: remove the entries whose id is
listed; unknown ids are ignored. -/
def coll_delete (ids : List Str) (c : Collection) : Collection :=
  ⟨c.entries.filter fun e => decide (e.1 ∉ ids)⟩

/-- Model of `collection.add(ids=..., documents=...)`: append the new
entries. -/
def coll_add (ids : List Str) (docs : List Str) (c : Collection) : Collection :=
  ⟨c.entries ++ ids.zip docs⟩

/-- Chunk id scheme of the backend `initialize_db` (src/backend/app.py
line 196): `doc_` then the document's position in the batch, then
`_chunk_`, then the chunk's ordinal index. -/
def mkChunkId (i j : Nat) : Str :=
  strL "doc_" ++ natStr i ++ strL "_chunk_" ++ natStr j

/-- The `chunk_ids` list of the `initialize_db` loop (src/backend/app.py
lines 195-196): the document at batch position `i` is chunked with the
call-site default `max_tokens=3000` and its chunks receive the ids
`doc_i_chunk_j`. -/
def doc_chunk_ids (enc : Str → List Nat) (dec : List Nat → Str)
    (i : Nat) (d : BDoc) : List Str :=
  (List.range (backend_split_text_into_chunks enc dec d.content 3000).length).map
    fun j => mkChunkId i j

/-- The `new_ids` delta of the `initialize_db` loop (src/backend/app.py
lines 197-198): the chunk ids not already present in the collection. -/
def ingestNewIds (enc : Str → List Nat) (dec : List Nat → Str)
    (c : Collection) (p : Nat × BDoc) : List Str :=
  (doc_chunk_ids enc dec p.1 p.2).filter fun id => decide (id ∉ get_ids c)

/-- The chunk texts paired to `new_ids` (src/backend/app.py line 201). -/
def ingestNewDocs (enc : Str → List Nat) (dec : List Nat → Str)
    (c : Collection) (p : Nat × BDoc) : List Str :=
  (((doc_chunk_ids enc dec p.1 p.2).zip
      (backend_split_text_into_chunks enc dec p.2.content 3000)).filter
    fun q => decide (q.1 ∈ ingestNewIds enc dec c p)).map (·.2)

/-- The per-document body of the `initialize_db` loop (src/backend/app.py
lines 194-207): add only the delta of ids not already present, with their
chunk texts; when the delta is empty nothing is added. -/
def ingestDoc (enc : Str → List Nat) (dec : List Nat → Str)
    (c : Collection) (p : Nat × BDoc) : Collection :=
  if ingestNewIds enc dec c p = [] then c
  else coll_add (ingestNewIds enc dec c p) (ingestNewDocs enc dec c p) c

/-- Model of the backend `initialize_db` (src/backend/app.py
lines 185-207): first delete every existing id, then ingest each document
of the batch in order with the delta-upsert of `ingestDoc`. -/
def initialize_db (enc : Str → List Nat) (dec : List Nat → Str)
    (documents : List BDoc) (c : Collection) : Collection :=
  (documents.enum).foldl (ingestDoc enc dec) (coll_delete (get_ids c) c)

/-! Character and strip lemmas. -/

lemma isSentEnd_not_space {c : Char} (h : isSentEnd c = true) :
    isPySpace c = false := by
  simp only [isSentEnd, Bool.or_eq_true, decide_eq_true_eq] at h
  rcases h with (h | h) | h <;> subst h <;> decide

lemma pyStrip_sublist (l : Str) : List.Sublist (pyStrip l) l :=
  ((List.rdropWhile_prefix _ _).sublist).trans ((List.dropWhile_suffix _).sublist)

lemma pyStrip_length_le (l : Str) : (pyStrip l).length ≤ l.length :=
  (pyStrip_sublist l).length_le

lemma count_tokens_pyStrip_le (l : Str) :
    count_tokens (pyStrip l) ≤ count_tokens l :=
  Nat.div_le_div_right (pyStrip_length_le l)

lemma head?_append_left {l s : Str} (h : l ≠ []) : (l ++ s).head? = l.head? := by
  cases l with
  | nil => exact absurd rfl h
  | cons a t => simp

lemma getLast?_append_right {l s : Str} (h : s ≠ []) :
    (l ++ s).getLast? = s.getLast? := by
  rw [List.getLast?_append]
  cases hs : s.getLast? with
  | some x => rfl
  | none => exact absurd (List.getLast?_eq_none_iff.mp hs) h

lemma dropWhile_head?_false {p : Char → Bool} {l : Str} :
    ∀ c, (l.dropWhile p).head? = some c → p c = false := by
  induction l with
  | nil => simp
  | cons a t ih =>
    rw [List.dropWhile_cons]
    split
    · exact ih
    · rename_i hpa
      intro c hc
      simp only [List.head?_cons, Option.some.injEq] at hc
      subst hc
      simpa using hpa

lemma pyStrip_eq_self {l : Str}
    (h1 : ∀ c, l.head? = some c → isPySpace c = false)
    (h2 : ∀ c, l.getLast? = some c → isPySpace c = false) : pyStrip l = l := by
  unfold pyStrip
  have hd : l.dropWhile isPySpace = l := by
    cases l with
    | nil => rfl
    | cons a t => rw [List.dropWhile_cons, h1 a rfl]; simp
  rw [hd, List.rdropWhile_eq_self_iff]
  intro hl
  have := h2 (l.getLast hl) (List.getLast?_eq_getLast l hl)
  simp [this]

lemma okPiece_pyStrip_eq {p : Str} (h : okPiece p) : pyStrip p = p :=
  pyStrip_eq_self h.2.1 h.2.2

lemma okPiece_join {a b : Str} (ha : okPiece a) (hb : okPiece b) :
    okPiece (a ++ ' ' :: b) := by
  obtain ⟨hane, hah, hal⟩ := ha
  obtain ⟨hbne, hbh, hbl⟩ := hb
  refine ⟨by simp, ?_, ?_⟩
  · rw [head?_append_left hane]
    exact hah
  · have : (' ' :: b).getLast? = b.getLast? := by
      have : ' ' :: b = [' '] ++ b := rfl
      rw [this, getLast?_append_right hbne]
    rw [getLast?_append_right (by simp), this]
    exact hbl

/-! Lemmas about the whitespace collapsing of `re.sub`. -/

lemma collapseWs_space {l : Str} :
    ∀ c ∈ collapseWs l, isPySpace c = true → c = ' ' := by
  induction l using collapseWs.induct with
  | case1 => simp [collapseWs]
  | case2 c h =>
    intro x hx
    simp only [collapseWs, if_pos h, List.mem_singleton] at hx
    subst hx
    intro _; rfl
  | case3 c h =>
    intro x hx
    simp only [collapseWs, if_neg h, List.mem_singleton] at hx
    subst hx
    intro hc
    exact absurd hc h
  | case4 c d rest h1 h2 ih =>
    simpa only [collapseWs, if_pos h1, if_pos h2] using ih
  | case5 c d rest h1 h2 ih =>
    intro x hx
    simp only [collapseWs, if_pos h1, if_neg h2, List.mem_cons] at hx
    rcases hx with rfl | hx
    · intro _; rfl
    · exact ih x hx
  | case6 c d rest h1 ih =>
    intro x hx
    simp only [collapseWs, if_neg h1, List.mem_cons] at hx
    rcases hx with rfl | hx
    · intro hc; exact absurd hc h1
    · exact ih x hx

lemma collapseWs_head? (l : Str) :
    (collapseWs l).head? = l.head?.map fun c => if isPySpace c then ' ' else c := by
  induction l using collapseWs.induct with
  | case1 => rfl
  | case2 c h => simp [collapseWs, if_pos h, h]
  | case3 c h => simp [collapseWs, if_neg h, h]
  | case4 c d rest h1 h2 ih => simp [collapseWs, if_pos h1, if_pos h2, ih, h1, h2]
  | case5 c d rest h1 h2 ih => simp [collapseWs, if_pos h1, if_neg h2, h1]
  | case6 c d rest h1 ih => simp [collapseWs, if_neg h1, h1]

lemma collapseWs_chain (l : Str) : (collapseWs l).Chain' noWsPair := by
  induction l using collapseWs.induct with
  | case1 => simp [collapseWs]
  | case2 c h => simp [collapseWs, if_pos h]
  | case3 c h => simp [collapseWs, if_neg h]
  | case4 c d rest h1 h2 ih => simpa only [collapseWs, if_pos h1, if_pos h2] using ih
  | case5 c d rest h1 h2 ih =>
    simp only [collapseWs, if_pos h1, if_neg h2]
    rw [List.chain'_cons']
    refine ⟨?_, ih⟩
    intro y hy
    rw [collapseWs_head? (d :: rest)] at hy
    simp only [List.head?_cons, Option.map_some', Option.mem_def, Option.some.injEq] at hy
    subst hy
    simp only [if_neg h2]
    exact fun hcon => h2 hcon.2
  | case6 c d rest h1 ih =>
    simp only [collapseWs, if_neg h1]
    rw [List.chain'_cons']
    refine ⟨?_, ih⟩
    intro y _
    exact fun hcon => h1 hcon.1

/-! Lemmas about the paragraph split. -/

lemma paraSplitAux_no_newline {acc l : Str} (h : '\n' ∉ l) :
    paraSplitAux acc l = [acc ++ l] := by
  induction acc, l using paraSplitAux.induct with
  | case1 acc => simp [paraSplitAux]
  | case2 acc c => simp [paraSplitAux]
  | case3 acc c d rest hc ih =>
    exfalso
    simp only [Bool.and_eq_true, decide_eq_true_eq] at hc
    exact h (by simp [hc.1])
  | case4 acc c d rest hc ih =>
    rw [paraSplitAux, if_neg hc, ih (fun hmem => h (List.mem_cons_of_mem _ hmem))]
    simp

/-! Lemmas about the sentence split. -/

lemma sentSplitAux_ne_nil (acc l : Str) : sentSplitAux acc l ≠ [] := by
  induction acc, l using sentSplitAux.induct with
  | case1 acc => simp [sentSplitAux]
  | case2 acc c rest h ih => simp [sentSplitAux, h]
  | case3 acc c rest h ih => simpa only [sentSplitAux, if_neg h] using ih

lemma joinSpaces_cons {a : Str} {r : List Str} (h : r ≠ []) :
    joinSpaces (a :: r) = a ++ ' ' :: joinSpaces r := by
  cases r with
  | nil => exact absurd rfl h
  | cons b t => rfl

lemma joinSpaces_merge (a b : Str) (r : List Str) :
    joinSpaces ((a ++ ' ' :: b) :: r) = joinSpaces (a :: b :: r) := by
  cases r with
  | nil => simp [joinSpaces]
  | cons c t => simp [joinSpaces]

lemma lastIsSentEnd_some {acc : Str} (h : lastIsSentEnd acc = true) :
    ∃ d, acc.getLast? = some d ∧ isSentEnd d = true := by
  unfold lastIsSentEnd at h
  cases hga : acc.getLast? with
  | none => rw [hga] at h; exact absurd h (by simp)
  | some d => rw [hga] at h; exact ⟨d, rfl, h⟩

lemma joinSpaces_sentSplitAux (acc l : Str) :
    (∀ c ∈ l, isPySpace c = true → c = ' ') → l.Chain' noWsPair →
    joinSpaces (sentSplitAux acc l) = acc ++ l := by
  induction acc, l using sentSplitAux.induct with
  | case1 acc => intro _ _; simp [sentSplitAux, joinSpaces]
  | case2 acc c rest h ih =>
    intro h1 h2
    have hws : isPySpace c = true := (Bool.and_eq_true_iff.mp h).1
    have hc : c = ' ' := h1 c (List.mem_cons_self _ _) hws
    have hdrop : rest.dropWhile isPySpace = rest := by
      cases rest with
      | nil => rfl
      | cons d t =>
        have hpair : noWsPair c d := (List.chain'_cons'.mp h2).1 d rfl
        have hd : isPySpace d = false := by
          cases hD : isPySpace d
          · rfl
          · exact absurd ⟨hws, hD⟩ hpair
        rw [List.dropWhile_cons, hd]
        simp
    rw [show sentSplitAux acc (c :: rest) =
          acc :: sentSplitAux [] (rest.dropWhile isPySpace) from by
        simp [sentSplitAux, h]]
    rw [joinSpaces_cons (sentSplitAux_ne_nil _ _)]
    rw [hdrop] at ih ⊢
    rw [ih (fun x hx => h1 x (List.mem_cons_of_mem _ hx)) (List.Chain'.tail h2)]
    simp [hc]
  | case3 acc c rest h ih =>
    intro h1 h2
    rw [show sentSplitAux acc (c :: rest) = sentSplitAux (acc ++ [c]) rest from by
        simp [sentSplitAux, h]]
    rw [ih (fun x hx => h1 x (List.mem_cons_of_mem _ hx)) (List.Chain'.tail h2)]
    simp

lemma sentSplitAux_chain (acc l : Str) :
    acc.Chain' noBoundaryPair →
    ∀ p ∈ sentSplitAux acc l, p.Chain' noBoundaryPair := by
  induction acc, l using sentSplitAux.induct with
  | case1 acc =>
    intro hacc p hp
    simp only [sentSplitAux, List.mem_singleton] at hp
    subst hp
    exact hacc
  | case2 acc c rest h ih =>
    intro hacc p hp
    rw [show sentSplitAux acc (c :: rest) =
          acc :: sentSplitAux [] (rest.dropWhile isPySpace) from by
        simp [sentSplitAux, h]] at hp
    rcases List.mem_cons.mp hp with rfl | hp
    · exact hacc
    · exact ih List.chain'_nil p hp
  | case3 acc c rest h ih =>
    intro hacc p hp
    rw [show sentSplitAux acc (c :: rest) = sentSplitAux (acc ++ [c]) rest from by
        simp [sentSplitAux, h]] at hp
    refine ih ?_ p hp
    rw [List.chain'_append]
    refine ⟨hacc, List.chain'_singleton _, ?_⟩
    intro x hx y hy
    simp only [List.head?_cons, Option.mem_def, Option.some.injEq] at hy
    subst hy
    intro hcon
    apply h
    rw [Bool.and_eq_true]
    refine ⟨hcon.2, ?_⟩
    unfold lastIsSentEnd
    rw [show acc.getLast? = some x from hx]
    exact hcon.1

lemma sentSplitAux_single (acc l : Str) :
    (acc ++ l).Chain' noBoundaryPair → sentSplitAux acc l = [acc ++ l] := by
  induction acc, l using sentSplitAux.induct with
  | case1 acc => intro _; simp [sentSplitAux]
  | case2 acc c rest h ih =>
    intro hchain
    exfalso
    have hws : isPySpace c = true := (Bool.and_eq_true_iff.mp h).1
    obtain ⟨d, hgd, hsd⟩ := lastIsSentEnd_some (Bool.and_eq_true_iff.mp h).2
    have := (List.chain'_append.mp hchain).2.2 d hgd c (by simp)
    exact this ⟨hsd, hws⟩
  | case3 acc c rest h ih =>
    intro hchain
    rw [show sentSplitAux acc (c :: rest) = sentSplitAux (acc ++ [c]) rest from by
        simp [sentSplitAux, h]]
    rw [ih (by simpa using hchain)]
    simp

lemma sentSplitAux_ok (acc l : Str) :
    (acc = [] → ∀ c, l.head? = some c → isPySpace c = false) →
    (acc ≠ [] → ∀ c, acc.head? = some c → isPySpace c = false) →
    (acc ++ l) ≠ [] →
    (∀ c, (acc ++ l).getLast? = some c → isPySpace c = false) →
    ∀ p ∈ sentSplitAux acc l, okPiece p := by
  induction acc, l using sentSplitAux.induct with
  | case1 acc =>
    intro _ H2 H3 H4 p hp
    simp only [sentSplitAux, List.mem_singleton] at hp
    subst hp
    rw [List.append_nil] at H3 H4
    exact ⟨H3, H2 H3, H4⟩
  | case2 acc c rest h ih =>
    intro H1 H2 H3 H4 p hp
    have hws : isPySpace c = true := (Bool.and_eq_true_iff.mp h).1
    obtain ⟨d, hgd, hsd⟩ := lastIsSentEnd_some (Bool.and_eq_true_iff.mp h).2
    have haccne : acc ≠ [] := by
      intro hcon
      rw [hcon] at hgd
      exact absurd hgd (by simp)
    -- the tail cannot be empty, and its last character is not whitespace
    have hlast : ∀ x, (c :: rest).getLast? = some x → isPySpace x = false := by
      intro x hx
      apply H4
      rw [getLast?_append_right (by simp)]
      exact hx
    have hrestne : rest ≠ [] := by
      intro hcon
      subst hcon
      exact absurd hws (by simp [hlast c rfl])
    obtain ⟨d', hgd'⟩ : ∃ d', rest.getLast? = some d' := by
      cases hg : rest.getLast? with
      | none => exact absurd (List.getLast?_eq_none_iff.mp hg) hrestne
      | some x => exact ⟨x, rfl⟩
    have hd' : isPySpace d' = false := by
      apply hlast
      rw [show c :: rest = [c] ++ rest from rfl, getLast?_append_right hrestne]
      exact hgd'
    have hdropne : rest.dropWhile isPySpace ≠ [] := by
      intro hcon
      have : ∀ x ∈ rest, isPySpace x = true := by
        simpa [List.dropWhile_eq_nil_iff] using hcon
      have hmem : d' ∈ rest := List.mem_of_getLast?_eq_some hgd'
      rw [this d' hmem] at hd'
      exact absurd hd' (by simp)
    rw [show sentSplitAux acc (c :: rest) =
          acc :: sentSplitAux [] (rest.dropWhile isPySpace) from by
        simp [sentSplitAux, h]] at hp
    rcases List.mem_cons.mp hp with rfl | hp
    · refine ⟨haccne, H2 haccne, ?_⟩
      intro x hx
      rw [hgd] at hx
      cases hx
      exact isSentEnd_not_space hsd
    · refine ih ?_ ?_ ?_ ?_ p hp
      · intro _ x hx
        exact dropWhile_head?_false x hx
      · intro hcon
        exact absurd rfl hcon
      · simpa using hdropne
      · intro x hx
        simp only [List.nil_append] at hx
        have hsplit : rest.takeWhile isPySpace ++ rest.dropWhile isPySpace = rest :=
          List.takeWhile_append_dropWhile _ _
        have : rest.getLast? = some x := by
          rw [← hsplit, getLast?_append_right hdropne]
          exact hx
        rw [hgd'] at this
        cases this
        exact hd'
  | case3 acc c rest h ih =>
    intro H1 H2 H3 H4 p hp
    rw [show sentSplitAux acc (c :: rest) = sentSplitAux (acc ++ [c]) rest from by
        simp [sentSplitAux, h]] at hp
    refine ih ?_ ?_ ?_ ?_ p hp
    · intro hcon
      exact absurd hcon (by simp)
    · intro _ x hx
      cases hacc : acc with
      | nil =>
        subst hacc
        simp only [List.nil_append, List.head?_cons, Option.some.injEq] at hx
        subst hx
        exact H1 rfl _ rfl
      | cons a t =>
        rw [head?_append_left (by simp [hacc])] at hx
        exact H2 (by simp [hacc]) x hx
    · simp
    · intro x hx
      apply H4
      rw [List.append_assoc] at hx
      simpa using hx

/-! Lemmas about the greedy accumulation loop. -/

lemma accumFinish_cons (x : Str) (A : List Str) (b : Str) :
    accumFinish (x :: A, b) = x :: accumFinish (A, b) := by
  unfold accumFinish
  split <;> simp

lemma foldl_accumStep_append (maxT : Int) :
    ∀ (rem : List Str) (chunks : List Str) (cur : Str),
    rem.foldl (accumStep maxT) (chunks, cur) =
      (chunks ++ (rem.foldl (accumStep maxT) ([], cur)).1,
       (rem.foldl (accumStep maxT) ([], cur)).2) := by
  intro rem
  induction rem with
  | nil => intro chunks cur; simp
  | cons p rest ih =>
    intro chunks cur
    simp only [List.foldl_cons]
    by_cases h : (count_tokens (cur ++ ' ' :: p) : Int) > maxT ∧ cur ≠ []
    · rw [show accumStep maxT (chunks, cur) p = (chunks ++ [pyStrip cur], p) from by
          simp only [accumStep]; rw [if_pos h]]
      rw [show accumStep maxT (([] : List Str), cur) p = ([pyStrip cur], p) from by
          simp only [accumStep]; rw [if_pos h]; simp]
      rw [ih (chunks ++ [pyStrip cur]) p, ih [pyStrip cur] p]
      simp
    · rw [show accumStep maxT (chunks, cur) p =
            (chunks, if cur = [] then p else cur ++ ' ' :: p) from by
          simp only [accumStep]; rw [if_neg h]]
      rw [show accumStep maxT (([] : List Str), cur) p =
            ([], if cur = [] then p else cur ++ ' ' :: p) from by
          simp only [accumStep]; rw [if_neg h]]
      exact ih chunks _

lemma accum_good (maxT : Int) (Q : Str → Prop) :
    ∀ (rem : List Str) (chunks : List Str) (cur : Str),
    (∀ p ∈ rem, Q p) →
    (∀ c ∈ chunks, (count_tokens c : Int) ≤ maxT ∨ ∃ p, Q p ∧ c = pyStrip p) →
    (cur = [] ∨ (count_tokens cur : Int) ≤ maxT ∨ Q cur) →
    ∀ c ∈ accumFinish (rem.foldl (accumStep maxT) (chunks, cur)),
      (count_tokens c : Int) ≤ maxT ∨ ∃ p, Q p ∧ c = pyStrip p := by
  intro rem
  induction rem with
  | nil =>
    intro chunks cur hrem hchunks hcur c hc
    simp only [List.foldl_nil, accumFinish] at hc
    split at hc
    · exact hchunks c hc
    · rename_i hne
      rcases List.mem_append.mp hc with hc | hc
      · exact hchunks c hc
      · simp only [List.mem_singleton] at hc
        subst hc
        rcases hcur with rfl | hle | hq
        · exact absurd rfl hne
        · left
          calc ((count_tokens (pyStrip cur) : Int)) ≤ (count_tokens cur : Int) := by
                exact_mod_cast count_tokens_pyStrip_le cur
            _ ≤ maxT := hle
        · right; exact ⟨cur, hq, rfl⟩
  | cons p rest ih =>
    intro chunks cur hrem hchunks hcur c hc
    simp only [List.foldl_cons] at hc
    by_cases h : (count_tokens (cur ++ ' ' :: p) : Int) > maxT ∧ cur ≠ []
    · rw [show accumStep maxT (chunks, cur) p = (chunks ++ [pyStrip cur], p) from by
          simp only [accumStep]; rw [if_pos h]] at hc
      refine ih (chunks ++ [pyStrip cur]) p
        (fun x hx => hrem x (List.mem_cons_of_mem _ hx)) ?_
        (Or.inr (Or.inr (hrem p (List.mem_cons_self _ _)))) c hc
      intro x hx
      rcases List.mem_append.mp hx with hx | hx
      · exact hchunks x hx
      · simp only [List.mem_singleton] at hx
        subst hx
        rcases hcur with rfl | hle | hq
        · exact absurd rfl h.2
        · left
          calc ((count_tokens (pyStrip cur) : Int)) ≤ (count_tokens cur : Int) := by
                exact_mod_cast count_tokens_pyStrip_le cur
            _ ≤ maxT := hle
        · right; exact ⟨cur, hq, rfl⟩
    · rw [show accumStep maxT (chunks, cur) p =
            (chunks, if cur = [] then p else cur ++ ' ' :: p) from by
          simp only [accumStep]; rw [if_neg h]] at hc
      by_cases hcur0 : cur = []
      · rw [if_pos hcur0] at hc
        exact ih chunks p (fun x hx => hrem x (List.mem_cons_of_mem _ hx)) hchunks
          (Or.inr (Or.inr (hrem p (List.mem_cons_self _ _)))) c hc
      · rw [if_neg hcur0] at hc
        refine ih chunks (cur ++ ' ' :: p)
          (fun x hx => hrem x (List.mem_cons_of_mem _ hx)) hchunks ?_ c hc
        right; left
        by_contra hgt
        exact h ⟨lt_of_not_ge hgt, hcur0⟩

lemma accum_ne_nil (maxT : Int) :
    ∀ (rem : List Str) (chunks : List Str) (cur : Str), okPiece cur →
    (∀ p ∈ rem, okPiece p) →
    accumFinish (rem.foldl (accumStep maxT) (chunks, cur)) ≠ [] := by
  intro rem
  induction rem with
  | nil =>
    intro chunks cur hcur _
    simp only [List.foldl_nil, accumFinish]
    rw [if_neg hcur.1]
    simp
  | cons p rest ih =>
    intro chunks cur hcur hrem
    simp only [List.foldl_cons]
    by_cases h : (count_tokens (cur ++ ' ' :: p) : Int) > maxT ∧ cur ≠ []
    · rw [show accumStep maxT (chunks, cur) p = (chunks ++ [pyStrip cur], p) from by
          simp only [accumStep]; rw [if_pos h]]
      exact ih _ p (hrem p (List.mem_cons_self _ _))
        (fun x hx => hrem x (List.mem_cons_of_mem _ hx))
    · rw [show accumStep maxT (chunks, cur) p =
            (chunks, if cur = [] then p else cur ++ ' ' :: p) from by
          simp only [accumStep]; rw [if_neg h]]
      rw [if_neg hcur.1]
      exact ih _ _ (okPiece_join hcur (hrem p (List.mem_cons_self _ _)))
        (fun x hx => hrem x (List.mem_cons_of_mem _ hx))

lemma accum_join (maxT : Int) :
    ∀ (rem : List Str) (cur : Str), okPiece cur → (∀ p ∈ rem, okPiece p) →
    joinSpaces (accumFinish (rem.foldl (accumStep maxT) ([], cur))) =
      joinSpaces (cur :: rem) := by
  intro rem
  induction rem with
  | nil =>
    intro cur hcur _
    simp only [List.foldl_nil, accumFinish]
    rw [if_neg hcur.1, okPiece_pyStrip_eq hcur]
    simp
  | cons p rest ih =>
    intro cur hcur hrem
    simp only [List.foldl_cons]
    by_cases h : (count_tokens (cur ++ ' ' :: p) : Int) > maxT ∧ cur ≠ []
    · have hp : okPiece p := hrem p (List.mem_cons_self _ _)
      have hrest : ∀ x ∈ rest, okPiece x :=
        fun x hx => hrem x (List.mem_cons_of_mem _ hx)
      rw [show accumStep maxT (([] : List Str), cur) p = ([pyStrip cur], p) from by
          simp only [accumStep]; rw [if_pos h]; simp]
      rw [okPiece_pyStrip_eq hcur]
      rw [foldl_accumStep_append maxT rest [cur] p]
      rw [show (([cur] ++ (rest.foldl (accumStep maxT) ([], p)).1 : List Str)) =
          cur :: (rest.foldl (accumStep maxT) ([], p)).1 from by simp]
      rw [accumFinish_cons]
      rw [show (((rest.foldl (accumStep maxT) ([], p)).1,
            (rest.foldl (accumStep maxT) ([], p)).2) :
            List Str × Str) = rest.foldl (accumStep maxT) ([], p) from rfl]
      rw [joinSpaces_cons (accum_ne_nil maxT rest [] p hp hrest)]
      rw [ih p hp hrest]
      rw [joinSpaces_cons (show (p :: rest : List Str) ≠ [] from by simp)]
    · have hp : okPiece p := hrem p (List.mem_cons_self _ _)
      have hrest : ∀ x ∈ rest, okPiece x :=
        fun x hx => hrem x (List.mem_cons_of_mem _ hx)
      rw [show accumStep maxT (([] : List Str), cur) p = ([], cur ++ ' ' :: p) from by
          simp only [accumStep]; rw [if_neg h]; rw [if_neg hcur.1]]
      rw [ih (cur ++ ' ' :: p) (okPiece_join hcur hp) hrest]
      exact joinSpaces_merge cur p rest

/-! Properties of the normalized text `pyStrip (collapseWs text)`. -/

lemma norm_space (text : Str) :
    ∀ c ∈ pyStrip (collapseWs text), isPySpace c = true → c = ' ' :=
  fun c hc => collapseWs_space c ((pyStrip_sublist _).subset hc)

lemma chain'_pyStrip {R : Char → Char → Prop} {l : Str} (h : l.Chain' R) :
    (pyStrip l).Chain' R :=
  List.Chain'.prefix (List.Chain'.suffix h (List.dropWhile_suffix _))
    (List.rdropWhile_prefix _ _)

lemma norm_chain (text : Str) : (pyStrip (collapseWs text)).Chain' noWsPair :=
  chain'_pyStrip (collapseWs_chain text)

lemma norm_head (text : Str) :
    ∀ c, (pyStrip (collapseWs text)).head? = some c → isPySpace c = false := by
  intro c hc
  have htne : pyStrip (collapseWs text) ≠ [] := by
    intro hcon
    rw [hcon] at hc
    cases hc
  obtain ⟨s, hs⟩ :=
    List.rdropWhile_prefix isPySpace ((collapseWs text).dropWhile isPySpace)
  have : ((collapseWs text).dropWhile isPySpace).head? = some c := by
    rw [← hs]
    show (pyStrip (collapseWs text) ++ s).head? = some c
    rw [head?_append_left htne]
    exact hc
  exact dropWhile_head?_false c this

lemma norm_last (text : Str) :
    ∀ c, (pyStrip (collapseWs text)).getLast? = some c → isPySpace c = false := by
  intro c hc
  have htne : pyStrip (collapseWs text) ≠ [] := by
    intro hcon
    rw [hcon] at hc
    cases hc
  have hlast := List.rdropWhile_last_not isPySpace
    ((collapseWs text).dropWhile isPySpace) htne
  rw [List.getLast?_eq_getLast _ htne] at hc
  cases hc
  simpa using hlast

lemma norm_okPiece (text : Str) (h : pyStrip (collapseWs text) ≠ []) :
    okPiece (pyStrip (collapseWs text)) :=
  ⟨h, norm_head text, norm_last text⟩

/-- The two-level structure of `split_text_into_chunks` once the text has
been normalized: the paragraph pass returns the whole normalized text as
one chunk, which is re-split at sentence boundaries only if oversized. -/
lemma split_structure (text : Str) (maxT : Int) :
    split_text_into_chunks text maxT =
      if pyStrip (collapseWs text) = [] then []
      else if (count_tokens (pyStrip (collapseWs text)) : Int) > maxT then
        greedyAccum maxT (sentenceSplit (pyStrip (collapseWs text)))
      else [pyStrip (collapseWs text)] := by
  unfold split_text_into_chunks
  have hnl : '\n' ∉ pyStrip (collapseWs text) := by
    intro hmem
    have := norm_space text '\n' hmem (by decide)
    exact absurd this (by decide)
  rw [show paraSplit (pyStrip (collapseWs text)) =
      [pyStrip (collapseWs text)] from by
    unfold paraSplit
    rw [paraSplitAux_no_newline hnl]
    simp]
  by_cases h0 : pyStrip (collapseWs text) = []
  · rw [if_pos h0, h0]
    simp [greedyAccum, accumStep, accumFinish]
  · rw [if_neg h0]
    rw [show greedyAccum maxT [pyStrip (collapseWs text)] =
        [pyStrip (collapseWs text)] from by
      unfold greedyAccum
      rw [List.foldl_cons]
      rw [show accumStep maxT (([] : List Str), ([] : Str))
            (pyStrip (collapseWs text)) = ([], pyStrip (collapseWs text)) from by
        simp [accumStep]]
      simp only [List.foldl_nil, accumFinish]
      rw [if_neg h0, okPiece_pyStrip_eq (norm_okPiece text h0)]
      simp]
    rw [List.flatMap_cons]
    by_cases hbig : (count_tokens (pyStrip (collapseWs text)) : Int) > maxT
    · rw [if_pos hbig]
      simp
    · rw [if_neg hbig]
      simp

/-! Claim theorems about the chunker. -/

/-- C8: for every token budget (any integer `max_tokens`), applying
`split_text_into_chunks` to the empty string returns the empty sequence of
chunks. -/
theorem split_text_into_chunks_empty (maxT : Int) :
    split_text_into_chunks [] maxT = [] := by
  rw [split_structure]
  rw [if_pos (show pyStrip (collapseWs []) = [] from by simp [collapseWs, pyStrip])]

/-- C5 counterexample: the chunks are not in general substrings of the raw
input text.  On the input `a TAB b` the single produced chunk is
`a SPACE b`, which is not a contiguous substring of the input, because the
function first rewrites every whitespace run to a single space. -/
theorem split_text_into_chunks_not_substring :
    split_text_into_chunks (strL "a\tb") 500 = [strL "a b"] ∧
      ¬ (strL "a b") <:+: (strL "a\tb") := by
  constructor
  · rfl
  · decide

/-- C5 (amended): the chunks are non-overlapping substrings of the
whitespace-normalized, stripped input text, in original reading order:
joining the chunks with single spaces reconstructs that normalized text
exactly. -/
theorem split_text_into_chunks_join (text : Str) (maxT : Int) :
    joinSpaces (split_text_into_chunks text maxT) = pyStrip (collapseWs text) := by
  rw [split_structure]
  by_cases h0 : pyStrip (collapseWs text) = []
  · rw [if_pos h0, h0]
    rfl
  · rw [if_neg h0]
    by_cases hbig : (count_tokens (pyStrip (collapseWs text)) : Int) > maxT
    · rw [if_pos hbig]
      have hok : ∀ p ∈ sentenceSplit (pyStrip (collapseWs text)), okPiece p := by
        unfold sentenceSplit
        refine sentSplitAux_ok [] _ ?_ ?_ ?_ ?_
        · intro _ c hc
          exact norm_head text c hc
        · intro hcon
          exact absurd rfl hcon
        · simpa using h0
        · intro c hc
          exact norm_last text c (by simpa using hc)
      have hjoin : joinSpaces (sentenceSplit (pyStrip (collapseWs text))) =
          pyStrip (collapseWs text) := by
        have := joinSpaces_sentSplitAux [] (pyStrip (collapseWs text))
          (norm_space text) (norm_chain text)
        simpa [sentenceSplit] using this
      cases hsp : sentenceSplit (pyStrip (collapseWs text)) with
      | nil => exact absurd hsp (sentSplitAux_ne_nil [] _)
      | cons p ps =>
        unfold greedyAccum
        rw [List.foldl_cons]
        rw [show accumStep maxT (([] : List Str), ([] : Str)) p = ([], p) from by
          simp [accumStep]]
        rw [accum_join maxT ps p (hok p (by rw [hsp]; exact List.mem_cons_self _ _))
          (fun x hx => hok x (by rw [hsp]; exact List.mem_cons_of_mem _ hx))]
        rw [← hsp, hjoin]
    · rw [if_neg hbig]
      rfl

/-- C4: every chunk produced by `split_text_into_chunks` has estimated token
count at most `max_tokens`, except a chunk that is a single sentence (the
sentence splitter returns it whole) whose own estimate exceeds the budget. -/
theorem split_text_into_chunks_size_bound (text : Str) (maxT : Int) (c : Str)
    (hc : c ∈ split_text_into_chunks text maxT) :
    (count_tokens c : Int) ≤ maxT ∨
      (sentenceSplit c = [c] ∧ maxT < (count_tokens c : Int)) := by
  by_cases hle : (count_tokens c : Int) ≤ maxT
  · exact Or.inl hle
  · right
    refine ⟨?_, lt_of_not_ge hle⟩
    rw [split_structure] at hc
    by_cases h0 : pyStrip (collapseWs text) = []
    · rw [if_pos h0] at hc
      cases hc
    · rw [if_neg h0] at hc
      by_cases hbig : (count_tokens (pyStrip (collapseWs text)) : Int) > maxT
      · rw [if_pos hbig] at hc
        unfold greedyAccum at hc
        have := accum_good maxT
          (fun p => p ∈ sentenceSplit (pyStrip (collapseWs text)))
          (sentenceSplit (pyStrip (collapseWs text))) [] []
          (fun p hp => hp) (by simp) (Or.inl rfl) c hc
        rcases this with h | ⟨p, hp, rfl⟩
        · exact absurd h hle
        · unfold sentenceSplit at hp
          have hchain : p.Chain' noBoundaryPair :=
            sentSplitAux_chain [] _ List.chain'_nil p hp
          have hchain' : (pyStrip p).Chain' noBoundaryPair := chain'_pyStrip hchain
          have := sentSplitAux_single [] (pyStrip p) (by simpa using hchain')
          simpa [sentenceSplit] using this
      · rw [if_neg hbig] at hc
        simp only [List.mem_singleton] at hc
        subst hc
        exact absurd (le_of_not_gt hbig) hle

/-- Witness for the chunk size bound at a concrete input. -/
theorem split_text_into_chunks_size_bound_witness :
    (strL "hi there" ∈ split_text_into_chunks (strL "hi there") 500) ∧
      ((count_tokens (strL "hi there") : Int) ≤ 500 ∨
        (sentenceSplit (strL "hi there") = [strL "hi there"] ∧
          500 < (count_tokens (strL "hi there") : Int))) :=
  ⟨by decide, split_text_into_chunks_size_bound (strL "hi there") 500
    (strL "hi there") (by decide)⟩

/-! Claim theorems about the retriever. -/

lemma keywordFallback_ne_nil (q : Str) : keywordFallback q ≠ [] := by
  unfold keywordFallback
  split_ifs <;> simp [mortgageFallback, insuranceFallback, genericFallback]

/-- C1 counterexample: a completed query over an empty (but existing)
collection reports a non-empty `documents` list whose first entry is the
empty list (`documents=[[]]`); the code returns that first entry as-is, so
retrieval returns an empty sequence instead of a non-empty fallback. -/
theorem retrieve_relevant_chunks_empty_result :
    retrieve_relevant_chunks (strL "mortgage")
      (QueryOutcome.success (some [[]])) = [] := rfl

/-- C1 (amended): retrieval is total — every outcome, including a raised
exception, is answered with a value — and the answer is non-empty in every
case except when the query succeeds and the first entry of its `documents`
field is itself empty, in which case that empty list is passed through. -/
theorem retrieve_relevant_chunks_total_nonempty (query : Str)
    (out : QueryOutcome) :
    (∃ rest, out = QueryOutcome.success (some ([] :: rest))) ∨
      retrieve_relevant_chunks query out ≠ [] := by
  cases out with
  | raised =>
    right
    simp [retrieve_relevant_chunks, errorFallback]
  | success docs =>
    cases docs with
    | none => exact Or.inr (keywordFallback_ne_nil query)
    | some l =>
      cases l with
      | nil => exact Or.inr (keywordFallback_ne_nil query)
      | cons first rest =>
        cases first with
        | nil => exact Or.inl ⟨rest, rfl⟩
        | cons a t =>
          right
          simp [retrieve_relevant_chunks]

/-- C2 counterexample: with an unreachable index the query call raises, and
the code answers with the fixed error-guidance snippets, not with the
mortgage-specific fallback set, even though the query contains the keyword
`mortgage`. -/
theorem retrieve_relevant_chunks_raised_not_mortgage :
    retrieve_relevant_chunks (strL "tell me about mortgage")
        QueryOutcome.raised = errorFallback ∧
      errorFallback ≠ mortgageFallback := by
  exact ⟨rfl, by decide⟩

/-- C2 (amended): the keyword fallback applies exactly when the query call
completes with a falsy or missing `documents` value: then a query containing
`mortgage` (case-insensitively) gets the mortgage snippet set and a query
containing neither keyword gets the generic set.  A raised query (index
unreachable) gets the fixed error set irrespective of keywords, and a
non-empty result is returned as-is, with no relevance thresholding. -/
theorem retrieve_relevant_chunks_fallback_selection (query : Str)
    (first : List Str) (rest : List (List Str)) :
    ((strL "mortgage") <:+: pyLower query →
        retrieve_relevant_chunks query (QueryOutcome.success none) =
            mortgageFallback ∧
          retrieve_relevant_chunks query (QueryOutcome.success (some [])) =
            mortgageFallback) ∧
      ((¬ (strL "mortgage") <:+: pyLower query ∧
          ¬ (strL "insurance") <:+: pyLower query) →
        retrieve_relevant_chunks query (QueryOutcome.success none) =
            genericFallback ∧
          retrieve_relevant_chunks query (QueryOutcome.success (some [])) =
            genericFallback) ∧
      retrieve_relevant_chunks query
          (QueryOutcome.success (some (first :: rest))) = first ∧
      retrieve_relevant_chunks query QueryOutcome.raised = errorFallback := by
  refine ⟨?_, ?_, rfl, rfl⟩
  · intro h
    constructor <;>
      simp [retrieve_relevant_chunks, keywordFallback, if_pos h]
  · intro h
    constructor <;>
      simp [retrieve_relevant_chunks, keywordFallback, h.1, h.2]

/-- Witness for the keyword fallback selection at concrete queries. -/
theorem retrieve_relevant_chunks_fallback_selection_witness :
    retrieve_relevant_chunks (strL "Tell me about MORTGAGE options")
        (QueryOutcome.success none) = mortgageFallback ∧
      retrieve_relevant_chunks (strL "hello")
        (QueryOutcome.success (some [])) = genericFallback :=
  ⟨((retrieve_relevant_chunks_fallback_selection
      (strL "Tell me about MORTGAGE options") [] []).1 (by decide)).1,
   ((retrieve_relevant_chunks_fallback_selection
      (strL "hello") [] []).2.1 ⟨by decide, by decide⟩).2⟩

/-! Claim theorems about document loading. -/

/-- C7: a directory entry whose read or parse raises an exception is skipped
and contributes no document, while every other entry of the batch is loaded
exactly as if the failing entry were absent — the failure does not abort the
surrounding loop. -/
theorem load_docs_skips_failing_entry (xs ys : List FileEntry) (name : Str) :
    load_docs (xs ++ ⟨name, true, Except.error ()⟩ :: ys) =
      load_docs xs ++ load_docs ys := by
  have hbad : processFile ⟨name, true, Except.error ()⟩ = none := by
    unfold processFile
    split_ifs <;> rfl
  simp [load_docs, List.filterMap_append, hbad]

/-! Claim theorems about the risk assessment. -/

lemma three_way_ite (P Q : Prop) [Decidable P] [Decidable Q] :
    (if P then "High" else if Q then "Medium" else "Low") = "Low" ∨
      (if P then "High" else if Q then "Medium" else "Low") = "Medium" ∨
      (if P then "High" else if Q then "Medium" else "Low") = "High" := by
  split_ifs <;> simp

/-- C10: the risk assessment is total on every client record and always
returns exactly one of the three strings Low, Medium, High; in particular
the mortgage-to-income ratio is only formed under the strict-positivity
guard on annual income, so no division by zero occurs. -/
theorem assess_risk_level_total (cd : ClientData) :
    assess_risk_level cd = "Low" ∨ assess_risk_level cd = "Medium" ∨
      assess_risk_level cd = "High" := by
  unfold assess_risk_level
  exact three_way_ite _ _

/-! Claim theorems about the premium calculator. -/

/-- The premium is `None` exactly when the table lookup fails. -/
lemma premium_none_iff_rate_none (age : Int) (cov : ℚ) (ct : String)
    (joint : Bool) (risk : String) :
    calculate_insurance_premium age cov ct joint risk = none ↔
      bracket_rate ct age = none := by
  unfold calculate_insurance_premium bracket_rate
  cases hab : age_bracket age with
  | none => simp
  | some br =>
    cases hlk : (base_rates.lookup ct).bind (fun tbl => tbl.lookup br) with
    | none => simp [hlk]
    | some r => simp [hlk]

set_option maxHeartbeats 1000000 in
/-- Characterization of the lookup failure in terms of age and coverage
type. -/
lemma bracket_rate_none_iff (ct : String) (age : Int) :
    bracket_rate ct age = none ↔
      (age < 18 ∨ 69 < age ∨ (ct = "disability" ∧ 65 < age) ∨
        (ct = "critical_illness" ∧ 55 < age) ∨
        (ct ≠ "life" ∧ ct ≠ "disability" ∧ ct ≠ "critical_illness")) := by
  have t1 : ("life" : String) ≠ "disability" := by decide
  have t2 : ("life" : String) ≠ "critical_illness" := by decide
  have t4 : ("disability" : String) ≠ "critical_illness" := by decide
  by_cases hl : ct = "life"
  · subst hl
    unfold bracket_rate age_bracket
    split_ifs <;> simp_all [base_rates, List.lookup, t1, t2] <;> omega
  · by_cases hd : ct = "disability"
    · subst hd
      unfold bracket_rate age_bracket
      split_ifs <;> simp_all [base_rates, List.lookup, t1, t4] <;> omega
    · by_cases hc : ct = "critical_illness"
      · subst hc
        unfold bracket_rate age_bracket
        split_ifs <;> simp_all [base_rates, List.lookup, t2, t4] <;> omega
      · have e1 : (ct == "life") = false := by
          rw [beq_eq_false_iff_ne]; exact hl
        have e2 : (ct == "disability") = false := by
          rw [beq_eq_false_iff_ne]; exact hd
        have e3 : (ct == "critical_illness") = false := by
          rw [beq_eq_false_iff_ne]; exact hc
        have hnone : List.lookup ct base_rates = none := by
          simp [base_rates, List.lookup, e1, e2, e3]
        have hbr : bracket_rate ct age = none := by
          unfold bracket_rate
          cases age_bracket age with
          | none => rfl
          | some br => rw [Option.some_bind, hnone]; rfl
        exact iff_of_true hbr (Or.inr (Or.inr (Or.inr (Or.inr ⟨hl, hd, hc⟩))))

/-- C9: the premium is `None` exactly when the age falls outside the rate
table for the requested coverage type (below 18 or above 69 generally,
above 65 for disability, above 55 for critical illness, or an unknown
coverage type); otherwise it is `(coverage_amount / 1000)` times the bracket
rate, times 1.75 when joint, times the risk multiplier (0.9 Low, 1.0 Medium,
1.2 High), rounded to two decimal places. -/
theorem calculate_insurance_premium_spec (age : Int) (cov : ℚ) (ct : String)
    (joint : Bool) (risk : String) :
    (calculate_insurance_premium age cov ct joint risk = none ↔
      (age < 18 ∨ 69 < age ∨ (ct = "disability" ∧ 65 < age) ∨
        (ct = "critical_illness" ∧ 55 < age) ∨
        (ct ≠ "life" ∧ ct ≠ "disability" ∧ ct ≠ "critical_illness"))) ∧
    (∀ r, bracket_rate ct age = some r →
      (risk = "Low" ∨ risk = "Medium" ∨ risk = "High") →
      calculate_insurance_premium age cov ct joint risk =
        some (pyRound2 ((cov / 1000) *
          (r * (if joint then (1.75 : ℚ) else 1) * risk_mult risk)))) := by
  constructor
  · rw [premium_none_iff_rate_none]
    exact bracket_rate_none_iff ct age
  · intro r hr hrisk
    unfold bracket_rate at hr
    cases hab : age_bracket age with
    | none =>
      rw [hab] at hr
      cases hr
    | some br =>
      rw [hab] at hr
      simp only [Option.some_bind] at hr
      unfold calculate_insurance_premium
      rw [hab]
      dsimp only
      rw [hr]
      rcases hrisk with rfl | rfl | rfl <;>
        cases joint <;>
        simp [risk_mult, risk_multipliers, List.lookup]

/-- Witness for the premium formula at a concrete eligible input. -/
theorem calculate_insurance_premium_spec_witness :
    bracket_rate "life" 40 = some 0.21 ∧
      calculate_insurance_premium 40 100000 "life" true "High" =
        some (pyRound2 ((100000 / 1000) *
          ((0.21 : ℚ) * (if true then (1.75 : ℚ) else 1) * risk_mult "High"))) :=
  ⟨by simp [bracket_rate, age_bracket, base_rates, List.lookup],
   (calculate_insurance_premium_spec 40 100000 "life" true "High").2 0.21
     (by simp [bracket_rate, age_bracket, base_rates, List.lookup]) (by decide)⟩

/-! Decimal digit strings and injectivity of the chunk id scheme. -/

lemma natStrAux_irrel : ∀ (f1 f2 n : Nat), n < f1 → n < f2 →
    natStrAux f1 n = natStrAux f2 n := by
  intro f1
  induction f1 with
  | zero => intro f2 n h1 _; omega
  | succ f ih =>
    intro f2 n h1 h2
    cases f2 with
    | zero => omega
    | succ g =>
      unfold natStrAux
      by_cases h10 : n < 10
      · rw [if_pos h10, if_pos h10]
      · rw [if_neg h10, if_neg h10]
        have hdiv : n / 10 < n := Nat.div_lt_self (by omega) (by omega)
        congr 1
        exact ih g (n / 10) (by omega) (by omega)

lemma natStr_unfold (n : Nat) :
    natStr n = if n < 10 then [Nat.digitChar n]
      else natStr (n / 10) ++ [Nat.digitChar (n % 10)] := by
  unfold natStr
  rw [show natStrAux (n + 1) n = if n < 10 then [Nat.digitChar n]
      else natStrAux n (n / 10) ++ [Nat.digitChar (n % 10)] from rfl]
  by_cases h : n < 10
  · rw [if_pos h, if_pos h]
  · rw [if_neg h, if_neg h]
    have hdiv : n / 10 < n := Nat.div_lt_self (by omega) (by omega)
    congr 1
    exact natStrAux_irrel n (n / 10 + 1) (n / 10) (by omega) (by omega)

lemma natStr_ne_nil (n : Nat) : natStr n ≠ [] := by
  rw [natStr_unfold]
  split <;> simp

lemma digitChar_lt_inj : ∀ a < 10, ∀ b < 10,
    Nat.digitChar a = Nat.digitChar b → a = b := by decide

lemma natStr_inj : ∀ n m : Nat, natStr n = natStr m → n = m := by
  intro n
  induction n using Nat.strong_induction_on with
  | _ n ih =>
    intro m h
    rw [natStr_unfold n, natStr_unfold m] at h
    by_cases hn : n < 10 <;> by_cases hm : m < 10
    · rw [if_pos hn, if_pos hm] at h
      simp only [List.cons.injEq, and_true] at h
      exact digitChar_lt_inj n hn m hm h
    · exfalso
      rw [if_pos hn, if_neg hm] at h
      have hlen := congrArg List.length h
      simp only [List.length_singleton, List.length_append] at hlen
      have := List.length_pos.mpr (natStr_ne_nil (m / 10))
      omega
    · exfalso
      rw [if_neg hn, if_pos hm] at h
      have hlen := congrArg List.length h
      simp only [List.length_singleton, List.length_append] at hlen
      have := List.length_pos.mpr (natStr_ne_nil (n / 10))
      omega
    · rw [if_neg hn, if_neg hm] at h
      have hlen : (natStr (n / 10)).length = (natStr (m / 10)).length := by
        have hl := congrArg List.length h
        simp only [List.length_append, List.length_singleton] at hl
        omega
      obtain ⟨h1, h2⟩ := List.append_inj h hlen
      have hdiv : n / 10 = m / 10 :=
        ih (n / 10) (Nat.div_lt_self (by omega) (by omega)) (m / 10) h1
      have hmod : n % 10 = m % 10 := by
        apply digitChar_lt_inj (n % 10) (Nat.mod_lt _ (by omega)) (m % 10)
          (Nat.mod_lt _ (by omega))
        simpa using h2
      omega

lemma mkChunkId_injective (i : Nat) : Function.Injective (mkChunkId i) := by
  intro j j' h
  unfold mkChunkId at h
  exact natStr_inj _ _ (List.append_cancel_left h)

/-! Lemmas about the modelled ChromaDB collection and ingestion. -/

lemma get_ids_coll_delete_all (c : Collection) :
    coll_delete (get_ids c) c = ⟨[]⟩ := by
  unfold coll_delete get_ids
  congr 1
  rw [List.filter_eq_nil_iff]
  intro e he
  simp only [decide_eq_true_eq, Decidable.not_not]
  exact List.mem_map_of_mem _ he

lemma initialize_db_state_independent (enc : Str → List Nat)
    (dec : List Nat → Str) (docs : List BDoc) (c c' : Collection) :
    initialize_db enc dec docs c = initialize_db enc dec docs c' := by
  unfold initialize_db
  rw [get_ids_coll_delete_all, get_ids_coll_delete_all]

lemma countP_fst_zip {α β : Type} (p : α → Bool) :
    ∀ (l1 : List α) (l2 : List β), l1.length = l2.length →
      (l1.zip l2).countP (fun q => p q.1) = l1.countP p := by
  intro l1
  induction l1 with
  | nil => intro l2 _; simp
  | cons a t ih =>
    intro l2 h
    cases l2 with
    | nil => simp at h
    | cons b t2 =>
      rw [List.zip_cons_cons, List.countP_cons, List.countP_cons,
        ih t2 (by simpa using h)]

lemma ingestNewDocs_length (enc : Str → List Nat) (dec : List Nat → Str)
    (c : Collection) (p : Nat × BDoc) :
    (ingestNewDocs enc dec c p).length = (ingestNewIds enc dec c p).length := by
  unfold ingestNewDocs
  rw [List.length_map, ← List.countP_eq_length_filter]
  rw [countP_fst_zip (fun x => decide (x ∈ ingestNewIds enc dec c p)) _ _
    (by simp [doc_chunk_ids])]
  unfold ingestNewIds
  rw [← List.countP_eq_length_filter]
  apply List.countP_congr
  intro x hx
  constructor
  · intro hmem
    have := (List.mem_filter.mp (of_decide_eq_true hmem)).2
    simpa using this
  · intro hnot
    apply decide_eq_true
    exact List.mem_filter.mpr ⟨hx, hnot⟩

lemma doc_chunk_ids_nodup (enc : Str → List Nat) (dec : List Nat → Str)
    (i : Nat) (d : BDoc) : (doc_chunk_ids enc dec i d).Nodup :=
  (List.nodup_range _).map (mkChunkId_injective i)

lemma ingestDoc_nodup (enc : Str → List Nat) (dec : List Nat → Str)
    (c : Collection) (p : Nat × BDoc) (h : (get_ids c).Nodup) :
    (get_ids (ingestDoc enc dec c p)).Nodup := by
  unfold ingestDoc
  split
  · exact h
  · rw [show get_ids (coll_add (ingestNewIds enc dec c p)
        (ingestNewDocs enc dec c p) c) =
        get_ids c ++ (ingestNewIds enc dec c p) from by
      unfold get_ids coll_add
      rw [List.map_append,
        List.map_fst_zip _ _ (le_of_eq (ingestNewDocs_length enc dec c p).symm)]]
    apply List.Nodup.append h
    · exact (doc_chunk_ids_nodup enc dec p.1 p.2).filter _
    · intro x hx hx2
      unfold ingestNewIds at hx2
      have := of_decide_eq_true (List.mem_filter.mp hx2).2
      exact this hx

lemma foldl_ingestDoc_nodup (enc : Str → List Nat) (dec : List Nat → Str) :
    ∀ (l : List (Nat × BDoc)) (c : Collection), (get_ids c).Nodup →
      (get_ids (l.foldl (ingestDoc enc dec) c)).Nodup := by
  intro l
  induction l with
  | nil => exact fun c h => h
  | cons p rest ih =>
    intro c h
    rw [List.foldl_cons]
    exact ih _ (ingestDoc_nodup enc dec c p h)

/-! Claim theorems about ingestion and chunk ids. -/

/-- C3: re-running `initialize_db` on the same unchanged batch leaves the
stored id set unchanged (even equal as a list, hence unchanged in size), and
the stored ids are free of duplicates, because only the delta of ids not
already present is added per document. -/
theorem initialize_db_idempotent (enc : Str → List Nat) (dec : List Nat → Str)
    (docs : List BDoc) (c : Collection) :
    get_ids (initialize_db enc dec docs (initialize_db enc dec docs c)) =
      get_ids (initialize_db enc dec docs c) ∧
      (get_ids (initialize_db enc dec docs c)).Nodup := by
  constructor
  · rw [initialize_db_state_independent enc dec docs
      (initialize_db enc dec docs c) c]
  · unfold initialize_db
    rw [get_ids_coll_delete_all]
    apply foldl_ingestDoc_nodup
    simp [get_ids]

/-- C6 counterexample: in the backend `initialize_db` the chunk ids are
derived from the document's position in the batch, not from its source
name: the same document (content `hello`, source `a.txt`) receives the id
`doc_0_chunk_0` when ingested alone but `doc_1_chunk_0` when another
document precedes it in the batch. -/
theorem initialize_db_ids_depend_on_batch_position :
    get_ids (initialize_db (fun s => s.map Char.toNat)
        (fun l => l.map Char.ofNat) [⟨strL "hello", strL "a.txt"⟩] ⟨[]⟩) =
      [strL "doc_0_chunk_0"] ∧
    get_ids (initialize_db (fun s => s.map Char.toNat)
        (fun l => l.map Char.ofNat)
        [⟨strL "yo", strL "b.txt"⟩, ⟨strL "hello", strL "a.txt"⟩] ⟨[]⟩) =
      [strL "doc_0_chunk_0", strL "doc_1_chunk_0"] ∧
    strL "doc_0_chunk_0" ≠ strL "doc_1_chunk_0" := by
  refine ⟨by decide, by decide, by decide⟩

/-- C6 (amended): in the frontend upload path the chunk ids are derived
from the source name and the chunk ordinal alone — the id sequence is the
map of `name-chunk-i` over the ordinals of the chunk list, so re-chunking
the same text with the same budget yields the same ids independently of any
batch. -/
theorem upload_documents_ids_from_name_and_ordinal (name text : Str)
    (maxT : Int) :
    (upload_documents name text maxT).map (·.1) =
      (List.range (split_text_into_chunks text maxT).length).map
        (mkUploadId name) := by
  unfold upload_documents
  rw [List.map_map]
  rw [show ((fun x : Str × Str × Str => x.1) ∘
      fun p : Nat × Str => (mkUploadId name p.1, p.2, name)) =
      (mkUploadId name) ∘ Prod.fst from rfl]
  rw [← List.map_map]
  rw [show (split_text_into_chunks text maxT).enum.map Prod.fst =
      List.range (split_text_into_chunks text maxT).length from by
    rw [List.enum, List.enumFrom_map_fst, ← List.range_eq_range']]

end Certus
